import Mathlib

/-!
Verification of the file-ingestion and naming utilities of
`src/lib/services/utils/strings.js`: the drop-payload scanner `scanFiles`,
the name deduplicator `renameIfNeeded`, and the path normalizer
`resolvePath`, shallowly embedded in Lean.

JS strings are modelled through their character lists (`String.toList`);
every `split` in the source uses a single-character separator (or the
regex `/,\s*/`, handled separately), so splitting the character list is
exact.  `String.prototype.localeCompare` in the default locale is
modelled by lexicographic code-point comparison, which agrees with it on
everything the concrete inputs of this development observe.
-/

namespace StringsJs

/-- JS `s.split(sep)` for a one-character separator, at the character
level: splitting an empty string yields one empty segment, and every
separator occurrence starts a new segment. -/
def splitOnCh (sep : Char) : List Char → List (List Char)
  | [] => [[]]
  | c :: cs =>
    if c = sep then [] :: splitOnCh sep cs
    else
      match splitOnCh sep cs with
      | s :: ss => (c :: s) :: ss
      | [] => [[c]]

/-- Lexicographic comparison of character lists, the model of
`a.localeCompare(b) <= 0`. -/
def charListLe : List Char → List Char → Bool
  | [], _ => true
  | _ :: _, [] => false
  | a :: as, b :: bs => if a < b then true else if b < a then false else charListLe as bs

/-- Models `a.localeCompare(b) <= 0` on strings. -/
def localeLe (a b : String) : Bool := charListLe a.toList b.toList

/-- Whether a string starts with a `.` (the hidden-file test
`entry.name.startsWith('.')` of line 86). -/
def startsWithDot (s : String) : Bool :=
  match s.toList with
  | c :: _ => c = '.'
  | [] => false

/-- A `File` object delivered by a `FileSystemFileEntry`'s `file()`
callback: its `name` and declared MIME `type`. -/
structure JSFile where
  name : String
  type : String
deriving DecidableEq, Repr

/-- A `FileSystemEntry` of the drop payload.  A `file` entry carries the
`File` it resolves to and whether the `file()` callback succeeds
(`readable = false` models the error callback of lines 102-104).  A `dir`
entry carries the host's paginated enumeration: `firstPage` is what a
single `readEntries` call returns, `restPages` are the further pages a
host may hold (the source calls `readEntries` exactly once, so it only
ever sees `firstPage`). -/
inductive Entry where
  | file (f : JSFile) (readable : Bool)
  | dir (name : String) (firstPage : List Entry) (restPages : List (List Entry))
deriving Repr

/-- Line 96 of the source, the per-pattern MIME test:
`subtype === '*' ? file.type.split('/')[0] === type : file.type === mimeType`
(the destructuring `[type, subtype] = mimeType.split('/')` leaves
`subtype` undefined when the pattern has no slash, and
`undefined === '*'` is false, so such a pattern goes to the exact
comparison). -/
def mimeTest (t : String) (mimeType : String) : Bool :=
  match splitOnCh '/' mimeType.toList with
  | ty :: sub :: _ =>
    if sub = ['*'] then (splitOnCh '/' t.toList).headD [] = ty
    else t == mimeType
  | _ => t == mimeType

/-- Lines 91-97: `!fileTypes.length || fileTypes.some(...)`. -/
def isValidType (fileTypes : List String) (t : String) : Bool :=
  fileTypes.isEmpty || fileTypes.any (mimeTest t)

/-- Whitespace trimming of both ends, modelling `accept.trim()`. -/
def trimCh (cs : List Char) : List Char :=
  ((cs.dropWhile Char.isWhitespace).reverse.dropWhile Char.isWhitespace).reverse

/-- Models `accept.trim().split(/,\s*/g)`: split on commas, each comma
swallowing the whitespace run that follows it. -/
def splitAccept (accept : String) : List String :=
  match splitOnCh ',' (trimCh accept.toList) with
  | [] => []
  | p :: ps =>
    String.mk p :: ps.map fun q => String.mk (q.dropWhile Char.isWhitespace)

/-- Line 75: `accept ? accept.trim().split(/,\s*/g) : []`; `accept` is
falsy when absent or the empty string. -/
def parseTypes : Option String → List String
  | none => []
  | some a => if a = "" then [] else splitAccept a

mutual

/-- The recursive `readEntry` of lines 83-111, with the flattening of
line 123 applied (`.flat(100000)` is modelled as a complete flatten; it
also models the `.filter(Boolean)` of line 124 in that skipped entries
contribute the empty list rather than a `null`).  A hidden name resolves
to nothing; a file entry yields itself when readable and accepted by the
filter; a directory entry reads a single page of children and recurses. -/
def readEntry (fileTypes : List String) : Entry → List JSFile
  | .file f readable =>
    if startsWithDot f.name then []
    else if readable then
      if isValidType fileTypes f.type then [f] else []
    else []
  | .dir name firstPage _ =>
    if startsWithDot name then []
    else readEntries fileTypes firstPage

/-- The `Promise.all(entries.map(readEntry))` of line 108, already
flattened. -/
def readEntries (fileTypes : List String) : List Entry → List JSFile
  | [] => []
  | e :: es => readEntry fileTypes e ++ readEntries fileTypes es

end

/-- The comparator of line 125: `(a, b) => a.name.localeCompare(b.name)`
read as an ordering relation. -/
def scanLe (a b : JSFile) : Prop := localeLe a.name b.name = true

instance : DecidableRel scanLe := fun _ _ => instDecidableEqBool _ _

/-- Lines 74-126: `scanFiles` over a drop payload.  Each item's
`webkitGetAsEntry()` may be `null` (modelled by `Option Entry`, a `null`
contributing nothing, as `.filter(Boolean)` removes it); the results are
flattened and sorted by name.  JS `Array.prototype.sort` is a stable
comparator sort; it is modelled by the stable `insertionSort`, which
produces the same list for the total preorder used here. -/
def scanFiles (items : List (Option Entry)) (accept : Option String) : List JSFile :=
  let fileTypes := parseTypes accept
  List.insertionSort scanLe
    ((items.map fun it => (it.map (readEntry fileTypes)).getD []).flatten)

/-- Character class `[a-zA-Z0-9]` of the extension capture (ASCII only,
exactly as the regex literal says). -/
def isAlnumAZ (c : Char) : Bool :=
  ('a' ≤ c && c ≤ 'z') || ('A' ≤ c && c ≤ 'Z') || ('0' ≤ c && c ≤ '9')

/-- Character class `[0-9]` of the `\d` capture in the duplicate matcher. -/
def isDigit09 (c : Char) : Bool := '0' ≤ c && c ≤ '9'

/-- A JS regex `.` (no `s` flag) matches anything but a line terminator:
`\n`, `\r`, U+2028 or U+2029. -/
def isLineTerm (c : Char) : Bool :=
  c = '\n' || c = '\r' || c = ' ' || c = ' '

/-- The suffix of a string after its last line terminator.  Since every
character consumed by `/(.+?)(?:\.([a-zA-Z0-9]+?))?$/` must be matched by
`.`, a literal dot, or an alphanumeric, and `$` is the absolute end of
the string, the leftmost match of that regex lives entirely inside this
suffix, and covers all of it. -/
def lastLineSuffix (cs : List Char) : List Char :=
  ((cs.reverse.takeWhile fun c => !isLineTerm c)).reverse

/-- Splits a line-terminator-free name into the `slug` and optional
`extension` captured by `/(.+?)(?:\.([a-zA-Z0-9]+?))?$/` at line 210: the
optional group can only fire on the last dot of the name (the captured
extension is all-alphanumeric, so it cannot contain a later dot), the
slug before it must be nonempty, and the lazy `(.+?)` prefers that split
over capturing the whole name. -/
def splitSlugExt (cs : List Char) : List Char × Option (List Char) :=
  let rcs := cs.reverse
  let extR := rcs.takeWhile isAlnumAZ
  match rcs.drop extR.length with
  | '.' :: rest =>
    if extR.isEmpty || rest.isEmpty then (cs, none)
    else (rest.reverse, some extR.reverse)
  | _ => (cs, none)

/-- The leftmost match of the slug/extension regex against `name`, or
`none` when the regex does not match at all (which happens exactly when
the suffix after the last line terminator is empty; the source then
reads the captures off the `?? []` fallback, getting `undefined`, and
`escapeRegExp(undefined)` throws a TypeError — modelled as `none`). -/
def nameMatch (name : String) : Option (List Char × Option (List Char)) :=
  let tail := lastLineSuffix name.toList
  if tail.isEmpty then none else some (splitSlugExt tail)

/-- Strips `pre` from the front of `s`, or fails. -/
def dropStart : List Char → List Char → Option (List Char)
  | [], s => some s
  | _, [] => none
  | c :: cs, d :: ds => if c = d then dropStart cs ds else none

/-- A match of the duplicate-detection regex of lines 212-214,
`^<slug>(?:-(\d+?))?<\.extension?>$`, against a candidate name `p`:
`none` when `p` does not match, `some g` when it matches with `g` the
captured digit group (`none` when the optional `-<digits>` part is
absent).  The escaped slug is a literal prefix; the tail after the
optional digits must equal the literal extension part, which pins the
length of the digit group, so the lazy `\d+?` has a unique solution. -/
def matchDup (slug : List Char) (ext : Option (List Char)) (p : List Char) :
    Option (Option (List Char)) :=
  match dropStart slug p with
  | none => none
  | some r =>
    let tailReq : List Char := match ext with | some e => '.' :: e | none => []
    if r = tailReq then some none
    else
      match r with
      | '-' :: r' =>
        let k := r'.length - tailReq.length
        if 1 ≤ k ∧ (r'.take k).all isDigit09 ∧ r'.drop k = tailReq then
          some (some (r'.take k))
        else none
      | _ => none

/-- Sort key of line 217: `a.split('.')[0]`, the portion before the
first dot. -/
def dotKey (s : String) : List Char := (splitOnCh '.' s.toList).headD []

/-- The comparator of line 217:
`(a, b) => a.split('.')[0].localeCompare(b.split('.')[0])`. -/
def keyLe (a b : String) : Prop := charListLe (dotKey a) (dotKey b) = true

instance : DecidableRel keyLe := fun _ _ => instDecidableEqBool _ _

/-- Digit string to number, as `Number()` evaluates an all-digit string
(the values reached in this program are small integers, where the JS
float is exact). -/
def natFromDigits (ds : List Char) : Nat :=
  ds.foldl (fun n c => n * 10 + (c.toNat - '0'.toNat)) 0

/-- Lines 205-227: `renameIfNeeded(name, otherNames)`.  The returned pair
is the produced name together with the contents of the caller's
`otherNames` array after the call — the source sorts that array in place
(line 217), so the final contents differ from the initial ones.  `none`
models the TypeError thrown when the slug regex fails to match `name`
(see `nameMatch`).  The in-place JS sort is stable; it is modelled by the
stable `insertionSort`. -/
def renameIfNeeded (name : String) (otherNames : List String) :
    Option (String × List String) :=
  if otherNames.isEmpty then some (name, otherNames)
  else
    match nameMatch name with
    | none => none
    | some (slug, ext) =>
      let sorted := List.insertionSort keyLe otherNames
      match sorted.reverse.find? fun p => (matchDup slug ext p.toList).isSome with
      | none => some (name, sorted)
      | some dupName =>
        let number :=
          (match (matchDup slug ext dupName.toList).join with
           | some ds => natFromDigits ds
           | none => 0) + 1
        let newName :=
          String.mk slug ++ "-" ++ toString number ++
            (match ext with | some e => "." ++ String.mk e | none => "")
        some (newName, sorted)

/-- The produced name alone (the value `renameIfNeeded` returns in the
source; the array state is dropped). -/
def renameResult (name : String) (otherNames : List String) : Option String :=
  (renameIfNeeded name otherNames).map Prod.fst

/-- JS `segments.join('/')`. -/
def joinSegs : List (List Char) → List Char
  | [] => []
  | [s] => s
  | s :: ss => s ++ '/' :: joinSegs ss

/-- The live, truthy segments of a slot array: drop tombstones (`none`)
and empty strings, exactly what `filter(Boolean)` keeps. -/
def liveSegs (l : List (Option (List Char))) : List (List Char) :=
  (l.filterMap id).filter fun s => !s.isEmpty

/-- Lines 230-234, `createPath`: join the truthy segments with `/`. -/
def createPath (segments : List (Option (List Char))) : List Char :=
  joinSegs (liveSegs segments)

/-- Nulls out the first live nonempty slot, scanning left to right;
leaves the array unchanged when no such slot exists.  Applied to the
reversed prefix this is the
`findLastIndex((s, i) => !!s && i < index)` + `segments[lastIndex] = null`
step of lines 253-257 (a `-1` result leaving everything untouched). -/
def tombstoneFirstLive : List (Option (List Char)) → List (Option (List Char))
  | [] => []
  | some t :: xs =>
    if t.isEmpty then some t :: tombstoneFirstLive xs else none :: xs
  | none :: xs => none :: tombstoneFirstLive xs

/-- Nulls out the last live nonempty slot of the processed prefix (or
nothing when every slot is dead or empty). -/
def tombstoneLast (l : List (Option (List Char))) : List (Option (List Char)) :=
  (tombstoneFirstLive l.reverse).reverse

/-- Whether a segment is literally `.` or `..` (line 248). -/
def isDotSeg (s : List Char) : Bool := s = ['.'] || s = ['.', '.']

/-- One iteration of the `forEach` of lines 247-263 over the slot array.
The state is the array prefix processed so far paired with the
`nameFound` flag; the incoming segment still holds its original value
because the loop only ever nulls the current index and earlier ones. -/
def resolveStep (st : List (Option (List Char)) × Bool) (seg : List Char) :
    List (Option (List Char)) × Bool :=
  let (processed, nameFound) := st
  if isDotSeg seg then
    if nameFound then
      if seg = ['.', '.'] then (tombstoneLast processed ++ [none], true)
      else (processed ++ [none], true)
    else (processed ++ [some seg], false)
  else (processed ++ [some seg], true)

/-- The slot array after the whole `forEach` loop has run. -/
def resolveSegs (segs : List (List Char)) : List (Option (List Char)) :=
  (segs.foldl resolveStep ([], false)).1

/-- Lines 242-266, `resolvePath`: split on `/`, null out resolvable dot
segments (and the ancestors `..` consumes), and rejoin the truthy
survivors. -/
def resolvePath (path : String) : String :=
  String.mk (createPath (resolveSegs (splitOnCh '/' path.toList)))

/-! Spec-level reading of the type filter, for claim C1: a file is
accepted when the filter is empty, or its declared type exactly equals a
non-wildcard pattern, or its primary category equals a wildcard
pattern's category. -/

/-- Whether a filter pattern is a wildcard-subtype pattern
(`category/*`). -/
def isWildcardPat (pat : String) : Bool :=
  match splitOnCh '/' pat.toList with
  | _ :: sub :: _ => sub = ['*']
  | _ => false

/-- The category part of a filter pattern (before the slash). -/
def patCategory (pat : String) : List Char :=
  (splitOnCh '/' pat.toList).headD []

/-- The primary category of a MIME type (before the slash). -/
def primaryCategory (t : String) : List Char :=
  (splitOnCh '/' t.toList).headD []

/-- The acceptance condition of claim C1, stated in the claim's own
three-way form. -/
def FilterAccepts (fileTypes : List String) (t : String) : Prop :=
  fileTypes = [] ∨
    (∃ pat ∈ fileTypes, isWildcardPat pat = false ∧ t = pat) ∨
    (∃ pat ∈ fileTypes, isWildcardPat pat = true ∧ primaryCategory t = patCategory pat)

theorem mimeTest_iff (t pat : String) :
    mimeTest t pat = true ↔
      (isWildcardPat pat = false ∧ t = pat) ∨
      (isWildcardPat pat = true ∧ primaryCategory t = patCategory pat) := by
  unfold mimeTest isWildcardPat patCategory primaryCategory
  rcases hsplit : splitOnCh '/' pat.toList with _ | ⟨ty, rest⟩
  · simp
  · rcases rest with _ | ⟨sub, rest'⟩
    · simp
    · by_cases hsub : sub = ['*'] <;> simp [hsub]

theorem isValidType_iff (fileTypes : List String) (t : String) :
    isValidType fileTypes t = true ↔ FilterAccepts fileTypes t := by
  unfold isValidType FilterAccepts
  rw [Bool.or_eq_true, List.isEmpty_iff, List.any_eq_true]
  constructor
  · rintro (hnil | ⟨pat, hmem, hp⟩)
    · exact Or.inl hnil
    · rcases (mimeTest_iff t pat).mp hp with h | h
      · exact Or.inr (Or.inl ⟨pat, hmem, h⟩)
      · exact Or.inr (Or.inr ⟨pat, hmem, h⟩)
  · rintro (hnil | ⟨pat, hmem, h⟩ | ⟨pat, hmem, h⟩)
    · exact Or.inl hnil
    · exact Or.inr ⟨pat, hmem, (mimeTest_iff t pat).mpr (Or.inl h)⟩
    · exact Or.inr ⟨pat, hmem, (mimeTest_iff t pat).mpr (Or.inr h)⟩

mutual

theorem readEntry_mem (ft : List String) : (e : Entry) → ∀ f ∈ readEntry ft e,
    isValidType ft f.type = true ∧ startsWithDot f.name = false
  | .file g readable => by
    intro f hf
    rw [readEntry] at hf
    split at hf
    · exact absurd hf (List.not_mem_nil f)
    · split at hf
      · split at hf
        · rw [List.mem_singleton] at hf
          subst hf
          exact ⟨‹isValidType ft f.type = true›,
            by simpa using ‹¬startsWithDot f.name = true›⟩
        · exact absurd hf (List.not_mem_nil f)
      · exact absurd hf (List.not_mem_nil f)
  | .dir name firstPage restPages => by
    intro f hf
    rw [readEntry] at hf
    split at hf
    · exact absurd hf (List.not_mem_nil f)
    · exact readEntries_mem ft firstPage f hf

theorem readEntries_mem (ft : List String) : (es : List Entry) → ∀ f ∈ readEntries ft es,
    isValidType ft f.type = true ∧ startsWithDot f.name = false
  | [] => by
    intro f hf
    rw [readEntries] at hf
    exact absurd hf (List.not_mem_nil f)
  | e :: es => by
    intro f hf
    rw [readEntries, List.mem_append] at hf
    rcases hf with hf | hf
    · exact readEntry_mem ft e f hf
    · exact readEntries_mem ft es f hf

end

/-- C1: every file in the scanner's output satisfies the type filter —
it is accepted because the filter is empty, or because its declared MIME
type exactly equals a non-wildcard pattern, or because its primary
category equals a wildcard pattern's category — and no file whose name
begins with `.` appears in the output, at any nesting depth. -/
theorem scanFiles_filter (items : List (Option Entry)) (accept : Option String) :
    ∀ f ∈ scanFiles items accept,
      FilterAccepts (parseTypes accept) f.type ∧ startsWithDot f.name = false := by
  intro f hf
  unfold scanFiles at hf
  rw [List.mem_insertionSort] at hf
  rw [List.mem_flatten] at hf
  obtain ⟨l, hl, hfl⟩ := hf
  rw [List.mem_map] at hl
  obtain ⟨it, _, rfl⟩ := hl
  cases it with
  | none => exact absurd hfl (by simp)
  | some e =>
    have h := readEntry_mem (parseTypes accept) e f (by simpa using hfl)
    exact ⟨(isValidType_iff _ _).mp h.1, h.2⟩

/-- Witness for C1: a concrete scan whose single output file satisfies
the filter and is not hidden. -/
theorem scanFiles_filter_witness :
    FilterAccepts (parseTypes (some "image/*")) "image/png" ∧
      startsWithDot "cat.png" = false := by
  have hmem : (⟨"cat.png", "image/png"⟩ : JSFile) ∈
      scanFiles [some (.file ⟨"cat.png", "image/png"⟩ true)] (some "image/*") := by
    simp +decide [scanFiles, readEntry, parseTypes, splitAccept, trimCh, mimeTest,
      isValidType, startsWithDot, List.insertionSort]
  exact scanFiles_filter [some (.file ⟨"cat.png", "image/png"⟩ true)]
    (some "image/*") ⟨"cat.png", "image/png"⟩ hmem

/-! Ordering facts about the comparator, and the completion-order model
of the concurrent reads, for claim C2. -/

theorem charListLe_trans :
    ∀ {a b c : List Char}, charListLe a b = true → charListLe b c = true →
      charListLe a c = true := by
  intro a
  induction a with
  | nil => intro b c _ _; rfl
  | cons x as ih =>
    intro b c hab hbc
    cases b with
    | nil => simp [charListLe] at hab
    | cons y bs =>
      cases c with
      | nil => simp [charListLe] at hbc
      | cons z cs =>
        simp only [charListLe] at hab hbc ⊢
        rcases lt_trichotomy x y with h1 | h1 | h1
        · rcases lt_trichotomy y z with h2 | h2 | h2
          · simp [lt_trans h1 h2]
          · subst h2; simp [h1]
          · rw [if_neg (asymm h2), if_pos h2] at hbc; exact absurd hbc (by simp)
        · subst h1
          rcases lt_trichotomy x z with h2 | h2 | h2
          · simp [h2]
          · subst h2
            rw [if_neg (lt_irrefl x)] at hab hbc ⊢
            rw [if_neg (lt_irrefl x)] at hab hbc ⊢
            exact ih hab hbc
          · rw [if_neg (asymm h2), if_pos h2] at hbc; exact absurd hbc (by simp)
        · rw [if_neg (asymm h1), if_pos h1] at hab; exact absurd hab (by simp)

theorem charListLe_total (a b : List Char) :
    charListLe a b = true ∨ charListLe b a = true := by
  induction a generalizing b with
  | nil => exact Or.inl rfl
  | cons x as ih =>
    cases b with
    | nil => exact Or.inr rfl
    | cons y bs =>
      rcases lt_trichotomy x y with h | h | h
      · left; simp [charListLe, h]
      · subst h
        rcases ih bs with h' | h'
        · left; simp [charListLe, lt_irrefl, h']
        · right; simp [charListLe, lt_irrefl, h']
      · right; simp [charListLe, h]

instance : IsTrans JSFile scanLe := ⟨fun _ _ _ hab hbc => charListLe_trans hab hbc⟩

instance : IsTotal JSFile scanLe := ⟨fun a b => charListLe_total a.name.toList b.name.toList⟩

/-- The result slots of the top-level `Promise.all` of lines 113-122:
`rs` lists the (deterministic) values the per-item reads resolve to, in
item order; `sched` lists the item indices in the order their reads
complete.  Each completion stores its value in its own slot, whatever
the completion order. -/
def promiseAllSlots (rs : List (List JSFile)) (sched : List Nat) :
    List (Option (List JSFile)) :=
  sched.foldl
    (fun acc i => match rs[i]? with | some v => acc.set i (some v) | none => acc)
    (List.replicate rs.length none)

/-- Collects the slot values once every slot is filled (`Promise.all`
resolves only then). -/
def allSome {α : Type} : List (Option α) → Option (List α)
  | [] => some []
  | none :: _ => none
  | some a :: xs => (allSome xs).map (a :: ·)

/-- `scanFiles` with the completion order of the top-level concurrent
reads made explicit: the per-item results are assembled from the slots
in whatever order `sched` fills them, then flattened and sorted as in
`scanFiles`. -/
def scanFilesSched (items : List (Option Entry)) (accept : Option String)
    (sched : List Nat) : Option (List JSFile) :=
  let fileTypes := parseTypes accept
  let rs := items.map fun it => (it.map (readEntry fileTypes)).getD []
  (allSome (promiseAllSlots rs sched)).map fun lists =>
    List.insertionSort scanLe lists.flatten

theorem promiseFold_getElem (rs : List (List JSFile)) :
    ∀ (sched : List Nat) (init : List (Option (List JSFile))),
      init.length = rs.length → ∀ j,
      (sched.foldl
        (fun acc i => match rs[i]? with | some v => acc.set i (some v) | none => acc)
        init)[j]? =
        if j ∈ sched ∧ j < rs.length then (rs[j]?).map some else init[j]? := by
  intro sched
  induction sched with
  | nil =>
    intro init _ j
    simp
  | cons i sched ih =>
    intro init hlen j
    rw [List.foldl_cons]
    have hstep :
        (match rs[i]? with | some v => init.set i (some v) | none => init).length =
          rs.length := by
      cases h : rs[i]? <;> simp [hlen]
    rw [ih _ hstep j]
    by_cases hj : j ∈ sched ∧ j < rs.length
    · rw [if_pos hj, if_pos ⟨List.mem_cons_of_mem i hj.1, hj.2⟩]
    · rw [if_neg hj]
      by_cases hji : j = i
      · subst hji
        by_cases hlt : j < rs.length
        · rw [if_pos ⟨List.mem_cons_self j sched, hlt⟩]
          simp only [List.getElem?_eq_getElem hlt, Option.map_some']
          rw [List.getElem?_set_self (by omega)]
        · rw [if_neg (fun h => hlt h.2)]
          have h1 : rs[j]? = none := List.getElem?_eq_none (le_of_not_lt hlt)
          rw [h1]
      · have hcond : ¬(j ∈ i :: sched ∧ j < rs.length) := by
          rintro ⟨hmem, hlt⟩
          rcases List.mem_cons.mp hmem with h | h
          · exact hji h
          · exact hj ⟨h, hlt⟩
        rw [if_neg hcond]
        cases h : rs[i]? with
        | none => rfl
        | some v => exact List.getElem?_set_ne fun h' => hji h'.symm

theorem promiseAllSlots_of_perm (rs : List (List JSFile)) (sched : List Nat)
    (hp : sched.Perm (List.range rs.length)) :
    promiseAllSlots rs sched = rs.map some := by
  apply List.ext_getElem?
  intro j
  unfold promiseAllSlots
  rw [promiseFold_getElem rs sched _ (by simp) j]
  by_cases hj : j < rs.length
  · have hmem : j ∈ sched := hp.mem_iff.mpr (List.mem_range.mpr hj)
    rw [if_pos ⟨hmem, hj⟩, List.getElem?_map]
  · have h1 : rs[j]? = none := List.getElem?_eq_none (le_of_not_lt hj)
    have h2 : (List.replicate rs.length (none : Option (List JSFile)))[j]? = none := by
      rw [List.getElem?_replicate]
      simp [hj]
    rw [if_neg (fun h => hj h.2), List.getElem?_map, h1, h2]
    rfl

theorem allSome_map_some {α : Type} (l : List α) : allSome (l.map some) = some l := by
  induction l with
  | nil => rfl
  | cons a l ih => simp [allSome, ih]

/-- C2: the scanner's output is sorted ascending by name under the
locale comparator, and the list assembled by the concurrent reads is the
same — `some (scanFiles items accept)` — for every completion order of
the per-item reads, so re-running on the same unchanged tree yields the
identical list. -/
theorem scanFiles_sorted_det (items : List (Option Entry)) (accept : Option String)
    (sched : List Nat) (hp : sched.Perm (List.range items.length)) :
    scanFilesSched items accept sched = some (scanFiles items accept) ∧
      List.Sorted scanLe (scanFiles items accept) := by
  constructor
  · simp only [scanFilesSched, scanFiles]
    rw [promiseAllSlots_of_perm _ _ (by simpa using hp), allSome_map_some]
    rfl
  · exact List.sorted_insertionSort scanLe _

/-- Witness for C2: a two-item payload whose reads complete in reverse
order still assembles the sorted scan result. -/
theorem scanFiles_sorted_det_witness :
    scanFilesSched
        [some (.file ⟨"b.png", "image/png"⟩ true), some (.file ⟨"a.png", "image/png"⟩ true)]
        none [1, 0] =
      some (scanFiles
        [some (.file ⟨"b.png", "image/png"⟩ true), some (.file ⟨"a.png", "image/png"⟩ true)]
        none) ∧
      List.Sorted scanLe (scanFiles
        [some (.file ⟨"b.png", "image/png"⟩ true), some (.file ⟨"a.png", "image/png"⟩ true)]
        none) :=
  scanFiles_sorted_det
    [some (.file ⟨"b.png", "image/png"⟩ true), some (.file ⟨"a.png", "image/png"⟩ true)]
    none [1, 0] (by decide)

/-! Theorems for the concrete-case claims. -/

/-- C4: the name deduplicator satisfies the four spec test cases:
`resolve("photo.jpg", [])` is `"photo.jpg"`,
`resolve("photo.jpg", ["photo.jpg"])` is `"photo-1.jpg"`,
`resolve("photo.jpg", ["photo.jpg", "photo-1.jpg"])` is `"photo-2.jpg"`,
and `resolve("notes", ["notes", "notes-3"])` is `"notes-4"`. -/
theorem renameIfNeeded_spec_cases :
    renameResult "photo.jpg" [] = some "photo.jpg" ∧
    renameResult "photo.jpg" ["photo.jpg"] = some "photo-1.jpg" ∧
    renameResult "photo.jpg" ["photo.jpg", "photo-1.jpg"] = some "photo-2.jpg" ∧
    renameResult "notes" ["notes", "notes-3"] = some "notes-4" := by
  refine ⟨by decide, by decide, by decide, by decide⟩

/-- C5, counterexample: with only the numbered variant present, the
deduplicator does not return the name unchanged — the duplicate-matcher
regex also matches `photo-1.jpg` by itself, so a rename is triggered
although `photo.jpg` is absent. -/
theorem renameIfNeeded_variant_only_not_unchanged :
    renameResult "photo.jpg" ["photo-1.jpg"] ≠ some "photo.jpg" := by decide

/-- C5, amended: when only the numbered variant `photo-1.jpg` exists and
`photo.jpg` itself does not, `resolve("photo.jpg", ["photo-1.jpg"])`
returns `"photo-2.jpg"`: the matcher accepts a numbered variant on its
own, so the base name need not be present for renaming to trigger. -/
theorem renameIfNeeded_variant_only :
    renameResult "photo.jpg" ["photo-1.jpg"] = some "photo-2.jpg" := by decide

/-- C7: the path normalizer satisfies the three spec test cases:
`resolvePath("a/b/c/../../d.png")` is `"a/d.png"`,
`resolvePath("../a/b.png")` is `"../a/b.png"` (leading dot segments with
no preceding real segment are untouched), and
`resolvePath("a/./b.png")` is `"a/b.png"`. -/
theorem resolvePath_spec_cases :
    resolvePath "a/b/c/../../d.png" = "a/d.png" ∧
    resolvePath "../a/b.png" = "../a/b.png" ∧
    resolvePath "a/./b.png" = "a/b.png" := by
  refine ⟨by decide, by decide, by decide⟩

/-- C9: evaluation of the code at the failing input.  The claim says the
core never throws and that a name not matching the `slug[.ext]` shape —
including the empty string — is treated as an opaque slug; but for the
empty name (with a nonempty existing-name list) the slug regex fails to
match, the captures destructured from the `?? []` fallback are
`undefined`, and `escapeRegExp(undefined)` throws a TypeError, modelled
here as `none`. -/
theorem renameIfNeeded_empty_name_throws :
    renameIfNeeded "" ["a.jpg"] = none := by decide

/-- C3: evaluation of the code at the failing input.  `readEntry` calls
the directory reader's `readEntries` exactly once, so a child that the
host reports only on a second page never reaches the output, although it
matches the (empty) filter: the scan of a directory whose first page is
empty and whose second page holds `a.png` returns no files. -/
theorem scanFiles_misses_second_page :
    scanFiles [some (.dir "d" [] [[.file ⟨"a.png", "image/png"⟩ true]])] none = [] := by
  simp [scanFiles, readEntry, readEntries, parseTypes, startsWithDot]

/-! Characterization of the ancestor-consumption step (claim C6). -/

/-- A slot that `findLastIndex((s, i) => !!s && i < index)` skips: a
tombstone or an empty-string segment (both falsy). -/
def deadOrEmpty (x : Option (List Char)) : Prop := x = none ∨ x = some []

theorem tombstoneFirstLive_of_dead {m : List (Option (List Char))}
    (h : ∀ x ∈ m, deadOrEmpty x) : tombstoneFirstLive m = m := by
  induction m with
  | nil => rfl
  | cons x xs ih =>
    have hx := h x (List.mem_cons_self x xs)
    have hxs : ∀ y ∈ xs, deadOrEmpty y := fun y hy => h y (List.mem_cons_of_mem _ hy)
    rcases hx with hx | hx
    · subst hx
      simpa [tombstoneFirstLive] using ih hxs
    · subst hx
      simpa [tombstoneFirstLive] using ih hxs

theorem tombstoneFirstLive_append_live {m₂ : List (Option (List Char))}
    (h : ∀ x ∈ m₂, deadOrEmpty x) (t : List Char) (ht : t ≠ [])
    (m₁ : List (Option (List Char))) :
    tombstoneFirstLive (m₂ ++ some t :: m₁) = m₂ ++ none :: m₁ := by
  induction m₂ with
  | nil =>
    simp [tombstoneFirstLive, List.isEmpty_iff, ht]
  | cons x xs ih =>
    have hx := h x (List.mem_cons_self x xs)
    have hxs : ∀ y ∈ xs, deadOrEmpty y := fun y hy => h y (List.mem_cons_of_mem _ hy)
    rcases hx with hx | hx
    · subst hx
      simpa [tombstoneFirstLive] using ih hxs
    · subst hx
      simpa [tombstoneFirstLive] using ih hxs

theorem tombstoneLast_consume (l₁ : List (Option (List Char))) (t : List Char)
    (ht : t ≠ []) {l₂ : List (Option (List Char))} (h : ∀ x ∈ l₂, deadOrEmpty x) :
    tombstoneLast (l₁ ++ some t :: l₂) = l₁ ++ none :: l₂ := by
  have h' : ∀ x ∈ l₂.reverse, deadOrEmpty x := by
    intro x hx
    exact h x (List.mem_reverse.mp hx)
  have : (l₁ ++ some t :: l₂).reverse = l₂.reverse ++ some t :: l₁.reverse := by
    simp
  rw [tombstoneLast, this, tombstoneFirstLive_append_live h' t ht]
  simp

theorem tombstoneLast_of_dead {l : List (Option (List Char))}
    (h : ∀ x ∈ l, deadOrEmpty x) : tombstoneLast l = l := by
  have h' : ∀ x ∈ l.reverse, deadOrEmpty x := by
    intro x hx
    exact h x (List.mem_reverse.mp hx)
  rw [tombstoneLast, tombstoneFirstLive_of_dead h', List.reverse_reverse]

/-- C6, counterexample: a `..` does consume a leading dot segment.  In
the loop state reached by `./a/../..` right before its final `..` (the
slots are `[".", null, null]` with a name already found), the `..` step
tombstones the leading `"."`; end to end, `resolvePath("./a/../..")`
returns `""`, not the `"."` the claim's rule would produce. -/
theorem resolveStep_consumes_leading_dot :
    resolveStep ([some ['.'], none, none], true) ['.', '.'] =
      ([none, none, none, none], true) ∧
    resolvePath "./a/../.." = "" ∧
    resolvePath "./a/../.." ≠ "." := by
  refine ⟨by decide, by decide, by decide⟩

/-- C6, amended: when the normalizer meets a `.` or `..` segment after a
real (non-dot) name has been seen, it tombstones that segment; for `..`
it additionally tombstones the most recent not-yet-tombstoned non-empty
segment before it — whatever that segment is, including a `.` or `..`
kept from the leading dot prefix — and when every earlier slot is
tombstoned or empty, the `..` is tombstoned alone. -/
theorem resolveStep_dot_rules :
    (∀ processed, resolveStep (processed, true) ['.'] = (processed ++ [none], true)) ∧
    (∀ (l₁ : List (Option (List Char))) (t : List Char)
        (l₂ : List (Option (List Char))), t ≠ [] → (∀ x ∈ l₂, deadOrEmpty x) →
      resolveStep (l₁ ++ some t :: l₂, true) ['.', '.'] =
        ((l₁ ++ none :: l₂) ++ [none], true)) ∧
    (∀ processed, (∀ x ∈ processed, deadOrEmpty x) →
      resolveStep (processed, true) ['.', '.'] = (processed ++ [none], true)) := by
  refine ⟨fun processed => by simp [resolveStep, isDotSeg], ?_, ?_⟩
  · intro l₁ t l₂ ht h
    simp [resolveStep, isDotSeg, tombstoneLast_consume l₁ t ht h]
  · intro processed h
    simp [resolveStep, isDotSeg, tombstoneLast_of_dead h]

/-- Witness for the amended C6 rules at concrete inputs. -/
theorem resolveStep_dot_rules_witness :
    resolveStep ([some ['a'], none], true) ['.', '.'] = ([none, none, none], true) ∧
    resolveStep ([none, some []], true) ['.', '.'] = ([none, some [], none], true) := by
  constructor
  · have h := resolveStep_dot_rules.2.1 [] ['a'] [none] (by decide)
      (by intro x hx; simp at hx; subst hx; exact Or.inl rfl)
    simpa using h
  · have h := resolveStep_dot_rules.2.2 [none, some []]
      (by
        intro x hx
        simp only [List.mem_cons, List.not_mem_nil, or_false] at hx
        rcases hx with hx | hx
        · exact Or.inl hx
        · exact Or.inr hx)
    simpa using h

/-! The deduplicator's effect on the caller's array (claim C8). -/

/-- C8, counterexample: the deduplicator is not free of effects on its
arguments — it sorts the `otherNames` array in place, so after
`resolve("photo.jpg", ["b.jpg", "a.jpg"])` the caller's array holds
`["a.jpg", "b.jpg"]`, not its original order. -/
theorem renameIfNeeded_mutates_array :
    (renameIfNeeded "photo.jpg" ["b.jpg", "a.jpg"]).map Prod.snd =
      some ["a.jpg", "b.jpg"] ∧
    (["a.jpg", "b.jpg"] : List String) ≠ ["b.jpg", "a.jpg"] := by
  refine ⟨by decide, by decide⟩

/-- C8, amended: the produced name is a pure function of the two
arguments and no state crosses calls, but the call sorts `otherNames` in
place: afterwards the array holds the same elements as before, reordered
by the first-dot-segment locale sort. -/
theorem renameIfNeeded_perm (name : String) (otherNames : List String)
    (r : String) (final : List String)
    (h : renameIfNeeded name otherNames = some (r, final)) :
    final.Perm otherNames := by
  unfold renameIfNeeded at h
  split at h
  · simp only [Option.some_inj, Prod.mk.injEq] at h
    rw [← h.2]
  · split at h
    · exact absurd h (by simp)
    · dsimp only at h
      split at h <;>
      · simp only [Option.some_inj, Prod.mk.injEq] at h
        rw [← h.2]
        exact List.perm_insertionSort keyLe otherNames

/-- Witness for the amended C8 theorem at a concrete call. -/
theorem renameIfNeeded_perm_witness :
    renameIfNeeded "photo.jpg" ["b.jpg", "a.jpg"] =
      some ("photo.jpg", ["a.jpg", "b.jpg"]) ∧
    List.Perm ["a.jpg", "b.jpg"] ["b.jpg", "a.jpg"] :=
  ⟨by decide, renameIfNeeded_perm "photo.jpg" ["b.jpg", "a.jpg"] "photo.jpg"
    ["a.jpg", "b.jpg"] (by decide)⟩

/-! Idempotence of the path normalizer (claim C10): the output of
`resolvePath` contains dot segments only in a leading prefix before any
real segment, so a second pass removes nothing further. -/

theorem isDotSeg_ne_nil {s : List Char} (h : isDotSeg s = true) : s ≠ [] := by
  rcases (by simpa [isDotSeg] using h : s = ['.'] ∨ s = ['.', '.']) with rfl | rfl <;> simp

theorem liveSegs_append (a b : List (Option (List Char))) :
    liveSegs (a ++ b) = liveSegs a ++ liveSegs b := by
  simp [liveSegs]

theorem liveSegs_single_some {s : List Char} (h : s ≠ []) : liveSegs [some s] = [s] := by
  simp [liveSegs, h]

theorem liveSegs_single_some_nil : liveSegs [some ([] : List Char)] = [] := by
  simp [liveSegs]

theorem liveSegs_single_none : liveSegs [(none : Option (List Char))] = [] := by
  simp [liveSegs]

theorem liveSegs_tombstoneFirstLive (m : List (Option (List Char))) :
    liveSegs (tombstoneFirstLive m) = (liveSegs m).tail := by
  induction m with
  | nil => rfl
  | cons x xs ih =>
    match x with
    | none => simpa [tombstoneFirstLive, liveSegs] using ih
    | some t =>
      by_cases ht : t.isEmpty
      · have ht' : t = [] := by simpa using ht
        subst ht'
        simpa [tombstoneFirstLive, liveSegs] using ih
      · have ht' : t ≠ [] := by simpa using ht
        simp [tombstoneFirstLive, ht, liveSegs, ht']

theorem liveSegs_reverse (l : List (Option (List Char))) :
    liveSegs l.reverse = (liveSegs l).reverse := by
  simp [liveSegs]

theorem liveSegs_tombstoneLast (l : List (Option (List Char))) :
    liveSegs (tombstoneLast l) = (liveSegs l).dropLast := by
  unfold tombstoneLast
  rw [liveSegs_reverse, liveSegs_tombstoneFirstLive, liveSegs_reverse,
    List.tail_reverse, List.reverse_reverse]

/-- Shape of the live segments of the loop state: a (possibly empty) run
of dot segments followed by non-dot, nonempty segments. -/
def SegsShape (l : List (List Char)) : Prop :=
  ∃ ds rs, l = ds ++ rs ∧ (∀ s ∈ ds, isDotSeg s = true) ∧
    (∀ s ∈ rs, isDotSeg s = false ∧ s ≠ [])

theorem segsShape_nil : SegsShape [] := ⟨[], [], rfl, by simp, by simp⟩

theorem segsShape_dropLast {l : List (List Char)} (h : SegsShape l) :
    SegsShape l.dropLast := by
  obtain ⟨ds, rs, rfl, hds, hrs⟩ := h
  rcases List.eq_nil_or_concat rs with rfl | ⟨rs', x, rfl⟩
  · rw [List.append_nil]
    refine ⟨ds.dropLast, [], (List.append_nil _).symm, ?_, by simp⟩
    intro s hs
    exact hds s ((List.dropLast_sublist ds).subset hs)
  · refine ⟨ds, rs', ?_, hds, fun s hs => hrs s (by
      rw [List.concat_eq_append]
      exact List.mem_append_left _ hs)⟩
    rw [List.concat_eq_append, ← List.append_assoc, List.dropLast_concat]

/-- Invariant of the `forEach` loop: while no real name has been seen
every processed slot is a live dot segment, and at all times the live
nonempty slots form a dot prefix followed by real segments. -/
def ResolveInv (st : List (Option (List Char)) × Bool) : Prop :=
  (st.2 = false → ∀ x ∈ st.1, ∃ d, x = some d ∧ isDotSeg d = true) ∧
    SegsShape (liveSegs st.1)

theorem mem_liveSegs_of_inv {processed : List (Option (List Char))}
    (hdots : ∀ x ∈ processed, ∃ d, x = some d ∧ isDotSeg d = true) :
    ∀ s ∈ liveSegs processed, isDotSeg s = true := by
  intro s hs
  have hs' : some s ∈ processed ∧ ¬s = [] := by simpa [liveSegs] using hs
  obtain ⟨d, hd, hdot⟩ := hdots (some s) hs'.1
  cases hd
  exact hdot

theorem resolveStep_inv {st : List (Option (List Char)) × Bool}
    (h : ResolveInv st) (seg : List Char) : ResolveInv (resolveStep st seg) := by
  obtain ⟨processed, b⟩ := st
  obtain ⟨hdots, hshape⟩ := h
  unfold resolveStep
  dsimp only
  by_cases hdot : isDotSeg seg = true
  · rw [if_pos hdot]
    cases b with
    | false =>
      rw [if_neg (by simp)]
      refine ⟨fun _ => ?_, ?_⟩
      · intro x hx
        rcases List.mem_append.mp hx with hx | hx
        · exact hdots rfl x hx
        · rw [List.mem_singleton] at hx
          exact ⟨seg, hx, hdot⟩
      · rw [liveSegs_append, liveSegs_single_some (isDotSeg_ne_nil hdot)]
        refine ⟨liveSegs processed ++ [seg], [], (List.append_nil _).symm, ?_, by simp⟩
        intro s hs
        rcases List.mem_append.mp hs with hs | hs
        · exact mem_liveSegs_of_inv (hdots rfl) s hs
        · rw [List.mem_singleton] at hs
          subst hs
          exact hdot
    | true =>
      rw [if_pos rfl]
      by_cases hseg2 : seg = ['.', '.']
      · rw [if_pos hseg2]
        refine ⟨by simp, ?_⟩
        rw [liveSegs_append, liveSegs_tombstoneLast, liveSegs_single_none,
          List.append_nil]
        exact segsShape_dropLast hshape
      · rw [if_neg hseg2]
        refine ⟨by simp, ?_⟩
        rw [liveSegs_append, liveSegs_single_none, List.append_nil]
        exact hshape
  · rw [if_neg hdot]
    refine ⟨by simp, ?_⟩
    rw [liveSegs_append]
    by_cases hemp : seg = []
    · subst hemp
      rw [liveSegs_single_some_nil, List.append_nil]
      exact hshape
    · rw [liveSegs_single_some hemp]
      obtain ⟨ds, rs, heq, hds, hrs⟩ := hshape
      refine ⟨ds, rs ++ [seg], by rw [heq, List.append_assoc], hds, ?_⟩
      intro s hs
      rcases List.mem_append.mp hs with hs | hs
      · exact hrs s hs
      · rw [List.mem_singleton] at hs
        subst hs
        exact ⟨by simpa using hdot, hemp⟩

theorem foldl_resolveStep_inv (segs : List (List Char))
    (st : List (Option (List Char)) × Bool) (h : ResolveInv st) :
    ResolveInv (segs.foldl resolveStep st) := by
  induction segs generalizing st with
  | nil => exact h
  | cons s segs ih => exact ih _ (resolveStep_inv h s)

/-- The live segments of the loop state never contain a slash when none
of the input segments does. -/
def NoSlashLive (st : List (Option (List Char)) × Bool) : Prop :=
  ∀ s ∈ liveSegs st.1, '/' ∉ s

theorem resolveStep_noslash {st : List (Option (List Char)) × Bool}
    (h : NoSlashLive st) {seg : List Char} (hseg : '/' ∉ seg) :
    NoSlashLive (resolveStep st seg) := by
  obtain ⟨processed, b⟩ := st
  intro s hs
  unfold resolveStep at hs
  dsimp only at hs
  have happ : ∀ (tail : List (Option (List Char))),
      (∀ u ∈ liveSegs tail, '/' ∉ u) → s ∈ liveSegs (processed ++ tail) → '/' ∉ s := by
    intro tail htail hmem
    rw [liveSegs_append] at hmem
    rcases List.mem_append.mp hmem with hmem | hmem
    · exact h s hmem
    · exact htail s hmem
  have hsingle : ∀ u ∈ liveSegs [some seg], '/' ∉ u := by
    intro u hu
    by_cases hemp : seg = []
    · subst hemp
      rw [liveSegs_single_some_nil] at hu
      exact absurd hu (List.not_mem_nil u)
    · rw [liveSegs_single_some hemp, List.mem_singleton] at hu
      subst hu
      exact hseg
  split at hs
  · split at hs
    · split at hs
      · rw [liveSegs_append, liveSegs_single_none, List.append_nil,
          liveSegs_tombstoneLast] at hs
        exact h s ((List.dropLast_sublist _).subset hs)
      · rw [liveSegs_append, liveSegs_single_none, List.append_nil] at hs
        exact h s hs
    · exact happ [some seg] hsingle hs
  · exact happ [some seg] hsingle hs

theorem foldl_resolveStep_noslash (segs : List (List Char))
    (st : List (Option (List Char)) × Bool) (h : NoSlashLive st)
    (hsegs : ∀ s ∈ segs, '/' ∉ s) :
    NoSlashLive (segs.foldl resolveStep st) := by
  induction segs generalizing st with
  | nil => exact h
  | cons s segs ih =>
    exact ih _ (resolveStep_noslash h (hsegs s (List.mem_cons_self s segs)))
      fun u hu => hsegs u (List.mem_cons_of_mem s hu)

theorem splitOnCh_ne_nil (sep : Char) (l : List Char) : splitOnCh sep l ≠ [] := by
  cases l with
  | nil => simp [splitOnCh]
  | cons c cs =>
    unfold splitOnCh
    by_cases hc : c = sep
    · simp [hc]
    · rw [if_neg hc]
      cases h : splitOnCh sep cs <;> simp

theorem mem_splitOnCh_no_sep (sep : Char) :
    ∀ (l : List Char), ∀ s ∈ splitOnCh sep l, sep ∉ s := by
  intro l
  induction l with
  | nil =>
    intro s hs
    rw [show splitOnCh sep [] = [[]] from rfl, List.mem_singleton] at hs
    subst hs
    exact List.not_mem_nil sep
  | cons c cs ih =>
    intro s hs
    unfold splitOnCh at hs
    by_cases hc : c = sep
    · rw [if_pos hc] at hs
      rcases List.mem_cons.mp hs with rfl | hs
      · exact List.not_mem_nil sep
      · exact ih s hs
    · rw [if_neg hc] at hs
      cases h : splitOnCh sep cs with
      | nil => exact absurd h (splitOnCh_ne_nil sep cs)
      | cons t ts =>
        rw [h] at hs
        rcases List.mem_cons.mp hs with rfl | hs
        · intro hmem
          rcases List.mem_cons.mp hmem with h' | h'
          · exact hc h'.symm
          · exact ih t (h ▸ List.mem_cons_self t ts) h'
        · exact ih s (h ▸ List.mem_cons_of_mem t hs)

theorem splitOnCh_append_no_sep (sep : Char) :
    ∀ (a : List Char), sep ∉ a → ∀ (l : List Char),
      splitOnCh sep (a ++ l) = (splitOnCh sep l).modifyHead (a ++ ·) := by
  intro a
  induction a with
  | nil =>
    intro _ l
    cases h : splitOnCh sep l with
    | nil => exact absurd h (splitOnCh_ne_nil sep l)
    | cons t ts =>
      rw [List.nil_append, h]
      simp
  | cons c a ih =>
    intro ha l
    have hc : ¬c = sep := fun h => ha (h ▸ List.mem_cons_self c a)
    have ha' : sep ∉ a := fun h => ha (List.mem_cons_of_mem c h)
    rw [List.cons_append]
    have hstep : splitOnCh sep (c :: (a ++ l)) =
        match splitOnCh sep (a ++ l) with
        | s :: ss => (c :: s) :: ss
        | [] => [[c]] := by
      rw [splitOnCh, if_neg hc]
    rw [hstep, ih ha' l]
    cases h : splitOnCh sep l with
    | nil => exact absurd h (splitOnCh_ne_nil sep l)
    | cons t ts => simp

theorem splitOnCh_join :
    ∀ (l : List (List Char)), l ≠ [] → (∀ s ∈ l, '/' ∉ s) →
      splitOnCh '/' (joinSegs l) = l
  | [], h, _ => absurd rfl h
  | [s], _, h => by
    rw [joinSegs, show s = s ++ [] from (List.append_nil s).symm,
      splitOnCh_append_no_sep '/' s (h s (List.mem_singleton_self s)) []]
    simp [splitOnCh]
  | s :: s' :: ss, _, h => by
    rw [show joinSegs (s :: s' :: ss) = s ++ '/' :: joinSegs (s' :: ss) from rfl,
      splitOnCh_append_no_sep '/' s (h s (List.mem_cons_self s (s' :: ss))) _,
      show splitOnCh '/' ('/' :: joinSegs (s' :: ss)) =
        [] :: splitOnCh '/' (joinSegs (s' :: ss)) from by rw [splitOnCh, if_pos rfl],
      splitOnCh_join (s' :: ss) (by simp) fun t ht => h t (List.mem_cons_of_mem s ht)]
    simp

theorem foldl_dots :
    ∀ (ds : List (List Char)), (∀ s ∈ ds, isDotSeg s = true) →
      ∀ acc, ds.foldl resolveStep (acc, false) = (acc ++ ds.map some, false)
  | [], _, acc => by simp
  | d :: ds, hds, acc => by
    have hd := hds d (List.mem_cons_self d ds)
    rw [List.foldl_cons,
      show resolveStep (acc, false) d = (acc ++ [some d], false) from by
        unfold resolveStep
        dsimp only
        rw [if_pos hd, if_neg (by simp)],
      foldl_dots ds (fun s hs => hds s (List.mem_cons_of_mem d hs)) (acc ++ [some d])]
    simp

theorem foldl_reals :
    ∀ (rs : List (List Char)), (∀ s ∈ rs, isDotSeg s = false) →
      ∀ acc b, rs.foldl resolveStep (acc, b) = (acc ++ rs.map some, b || !rs.isEmpty)
  | [], _, acc, b => by simp
  | r :: rs, hrs, acc, b => by
    have hr := hrs r (List.mem_cons_self r rs)
    rw [List.foldl_cons,
      show resolveStep (acc, b) r = (acc ++ [some r], true) from by
        unfold resolveStep
        dsimp only
        rw [if_neg (by simp [hr])],
      foldl_reals rs (fun s hs => hrs s (List.mem_cons_of_mem r hs)) (acc ++ [some r]) true]
    simp

theorem resolveSegs_shaped (ds rs : List (List Char))
    (hds : ∀ s ∈ ds, isDotSeg s = true) (hrs : ∀ s ∈ rs, isDotSeg s = false) :
    resolveSegs (ds ++ rs) = (ds ++ rs).map some := by
  unfold resolveSegs
  rw [List.foldl_append, foldl_dots ds hds [], List.nil_append,
    foldl_reals rs hrs (ds.map some) false]
  simp

theorem liveSegs_map_some (l : List (List Char)) (h : ∀ s ∈ l, s ≠ []) :
    liveSegs (l.map some) = l := by
  unfold liveSegs
  rw [List.filterMap_map]
  rw [show ((id : Option (List Char) → Option (List Char)) ∘ some) = some from rfl,
    List.filterMap_some]
  rw [List.filter_eq_self.mpr]
  intro s hs
  simpa using h s hs

/-- C10: the path normalizer is idempotent — applying `resolvePath` to
its own output changes nothing, because that output consists of a
leading run of dot segments (which a second pass leaves untouched, no
real name having been seen yet) followed by real segments only. -/
theorem resolvePath_idem (p : String) : resolvePath (resolvePath p) = resolvePath p := by
  have hinv : ResolveInv ((splitOnCh '/' p.toList).foldl resolveStep ([], false)) :=
    foldl_resolveStep_inv _ _ ⟨fun _ x hx => absurd hx (List.not_mem_nil x),
      by simpa [liveSegs] using segsShape_nil⟩
  have hnos : NoSlashLive ((splitOnCh '/' p.toList).foldl resolveStep ([], false)) :=
    foldl_resolveStep_noslash _ _ (fun s hs => by simp [liveSegs] at hs)
      (mem_splitOnCh_no_sep '/' p.toList)
  obtain ⟨ds, rs, houteq, hds, hrs⟩ := hinv.2
  have hout : liveSegs (resolveSegs (splitOnCh '/' p.toList)) = ds ++ rs := houteq
  have hrp : resolvePath p = String.mk (joinSegs (ds ++ rs)) := by
    rw [show resolvePath p =
        String.mk (joinSegs (liveSegs (resolveSegs (splitOnCh '/' p.toList)))) from rfl,
      hout]
  rcases eq_or_ne (ds ++ rs) [] with hnil | hne
  · rw [hrp, hnil]
    decide
  · have hnoslash : ∀ s ∈ ds ++ rs, '/' ∉ s := fun s hs => hnos s (hout ▸ hs)
    have hjoin : splitOnCh '/' (joinSegs (ds ++ rs)) = ds ++ rs :=
      splitOnCh_join (ds ++ rs) hne hnoslash
    have htolist : (String.mk (joinSegs (ds ++ rs))).toList = joinSegs (ds ++ rs) := rfl
    rw [hrp, show resolvePath (String.mk (joinSegs (ds ++ rs))) =
        String.mk (joinSegs (liveSegs (resolveSegs
          (splitOnCh '/' (joinSegs (ds ++ rs)))))) from rfl,
      hjoin, resolveSegs_shaped ds rs hds (fun s hs => (hrs s hs).1),
      liveSegs_map_some (ds ++ rs) ?_]
    intro s hs
    rcases List.mem_append.mp hs with hs | hs
    · exact isDotSeg_ne_nil (hds s hs)
    · exact (hrs s hs).2

end StringsJs
